import Mathlib

/-!
Verification of the link-mapping builder (scripts/build_link_mapping.py).

Python strings are modelled as lists of characters (`Str`).  Each Python
helper used by the builder is embedded as an executable Lean function:
string `strip`, `split(sep, maxsplit)`, the YAML front-matter extractor,
the regex-based link extractor, the directory scan, and the JSON-mapping
generator.  A directory is a list of `FileEntry` values; a file whose
read fails is represented with `content = none`; a missing note
directory is represented by passing `none` to `scan_notes`.
-/

namespace GeoKB

abbrev Str := List Char

/-- Python `c.isspace()`-style predicate used by `str.strip()`. -/
def isWS (c : Char) : Bool := c.isWhitespace

/-- Remove leading whitespace (left part of Python `str.strip()`). -/
def lstrip (s : Str) : Str := s.dropWhile isWS

/-- Remove trailing whitespace (right part of Python `str.strip()`). -/
def rstrip (s : Str) : Str := (s.reverse.dropWhile isWS).reverse

/-- Python `s.strip()`. -/
def pyStrip (s : Str) : Str := lstrip (rstrip s)

/-- Python `s.strip(q)` for a single character `q`: removes every leading
and trailing occurrence of `q`. -/
def stripAllChar (q : Char) (s : Str) : Str :=
  ((s.dropWhile (fun c => c == q)).reverse.dropWhile (fun c => c == q)).reverse

/-- The single-quote character. -/
def squote : Char := Char.ofNat 39

/-- Python `value.strip().strip(chr(34)).strip(chr(39))` applied to a
front-matter value (line 39 of the script). -/
def pyStripValue (v : Str) : Str := stripAllChar squote (stripAllChar ('"') (pyStrip v))

/-- Python `s.startswith(sep)` on the character-list model. -/
def isPref : Str → Str → Bool
  | [], _ => true
  | _ :: _, [] => false
  | a :: as, b :: bs => if a = b then isPref as bs else false

/-- Locate the first (leftmost) occurrence of `sep`, returning the part
before it and the part after it, as Python `str.split` does. -/
def splitFirst (sep : Str) : Str → Option (Str × Str)
  | [] => none
  | c :: cs =>
    if isPref sep (c :: cs) then some ([], (c :: cs).drop sep.length)
    else
      match splitFirst sep cs with
      | none => none
      | some (p, q) => some (c :: p, q)

/-- Python `sep in s` (substring containment). -/
def containsSub (sep s : Str) : Bool := (splitFirst sep s).isSome

/-- Python `s.split(sep, maxsplit)`: at most `maxsplit` splits. -/
def pySplitMax : Nat → Str → Str → List Str
  | 0, _, s => [s]
  | n + 1, sep, s =>
    match splitFirst sep s with
    | none => [s]
    | some (p, q) => p :: pySplitMax n sep q

/-- Python `s.split(sep)` with no split limit (`s.length` dominates the
number of possible splits for a non-empty separator). -/
def pySplit (s sep : Str) : List Str := pySplitMax (s.length + 1) sep s

/-- The front-matter delimiter literal of the script. -/
def fmDelim : Str := "---".toList

/-- One `key: value` line of the front-matter region (lines 37-39 of the
script): lines without a colon are ignored; the first colon splits the
line; key and value are stripped, the value also loses surrounding
quote characters. -/
def dictInsert (k v : Str) : List (Str × Str) → List (Str × Str)
  | [] => [(k, v)]
  | (k1, v1) :: rest => if k1 = k then (k1, v) :: rest else (k1, v1) :: dictInsert k v rest

/-- Python `d.get(k, "")` for the string dictionaries of the script. -/
def dictGet (k : Str) : List (Str × Str) → Str
  | [] => []
  | (k1, v1) :: rest => if k1 = k then v1 else dictGet k rest

/-- Process one line of the front-matter region (lines 36-39). -/
def parseFMLine (fm : List (Str × Str)) (line : Str) : List (Str × Str) :=
  if (':') ∈ line then
    dictInsert (pyStrip (line.takeWhile (fun c => c != ':')))
      (pyStripValue ((line.dropWhile (fun c => c != ':')).drop 1)) fm
  else fm

/-- `extract_yaml_frontmatter` (lines 29-40 of the script): if the
content starts with the delimiter, split on it with maxsplit 2; with at
least three parts, parse the stripped middle part line by line. -/
def extract_yaml_frontmatter (content : Str) : List (Str × Str) :=
  if isPref fmDelim content then
    match pySplitMax 2 fmDelim content with
    | _ :: p1 :: _ :: _ => (pySplit (pyStrip p1) [('\n')]).foldl parseFMLine []
    | _ => []
  else []

/-- Greedy `\.?` or `/?` of the link regex: the candidate remainders in
backtracking order (consume the optional character first). -/
def optConsume (c : Char) : Str → List Str
  | [] => [[]]
  | x :: t => if x = c then [t, x :: t] else [x :: t]

/-- The `.md` extension literal. -/
def mdExt : Str := ".md".toList

/-- Match `([^\)]+\.md)\)` of the link regex at the given position: the
greedy non-parenthesis run must be closed by a parenthesis, end in
`.md` and have a non-empty stem. -/
def tryTail (s : Str) : Option (Str × Str) :=
  let run := s.takeWhile (fun c => c != ')')
  match s.dropWhile (fun c => c != ')') with
  | [] => none
  | _ :: rest =>
    if isPref mdExt.reverse run.reverse = true ∧ 4 ≤ run.length then some (run, rest)
    else none

/-- Match `\.?/?([^\)]+\.md)\)` of the link regex, trying the greedy
alternatives of the two optional characters in backtracking order. -/
def matchTarget (s : Str) : Option (Str × Str) :=
  (((optConsume ('.') s).map (optConsume ('/'))).flatten).findSome? tryTail

/-- After an opening square bracket: match `([^\]]+)\]\(` followed by
the target part, returning display text, target, and the remainder of
the input after the whole match. -/
def matchAfterBracket (cs : Str) : Option (Str × Str × Str) :=
  let txt := cs.takeWhile (fun c => c != ']')
  if txt = [] then none
  else
    match cs.dropWhile (fun c => c != ']') with
    | (']') :: ('(') :: rest =>
      match matchTarget rest with
      | some (tgt, rest2) => some (txt, tgt, rest2)
      | none => none
    | _ => none

/-- `re.finditer` over the content for the link pattern
`\[([^\]]+)\]\(\.?/?([^\)]+\.md)\)`: leftmost, non-overlapping matches;
on failure at a bracket the search resumes one character further. -/
def scanLinks : Nat → Str → List (Str × Str)
  | 0, _ => []
  | _ + 1, [] => []
  | fuel + 1, c :: cs =>
    if c = '[' then
      match matchAfterBracket cs with
      | some (txt, tgt, rest) => (txt, tgt) :: scanLinks fuel rest
      | none => scanLinks fuel cs
    else scanLinks fuel cs

/-- `os.path.basename`: the part after the last slash. -/
def basename (p : Str) : Str := (p.reverse.takeWhile (fun c => c != '/')).reverse

/-- The `./` literal of the script. -/
def dotSlash : Str := "./".toList

/-- Python `s.replace(old, new)` (all non-overlapping occurrences). -/
def pyReplace (s old new : Str) : Str := List.intercalate new (pySplit s old)

/-- `extract_links` (lines 43-66 of the script): every regex match as a
(display text, filename) pair, the target reduced to its basename with
any `./` removed. -/
def extract_links (content : Str) : List (Str × Str) :=
  (scanLinks content.length content).map (fun m => (m.1, pyReplace (basename m.2) dotSlash []))

/-- A file of the scanned directory: its filename and its content, with
`none` standing for a read failure. -/
structure FileEntry where
  name : Str
  content : Option Str
deriving DecidableEq

/-- The four accumulator maps of `scan_notes` (also its result type). -/
structure ScanState where
  existing_notes : List (Str × Str)
  all_links : List (Str × List Str)
  broken_links : List (Str × List Str)
  files_linking_to : List (Str × List Str)
deriving DecidableEq

/-- `defaultdict(list)` append: `d[k].append(v)`. -/
def mapAppend (k v : Str) : List (Str × List Str) → List (Str × List Str)
  | [] => [(k, [v])]
  | (k1, vs) :: rest => if k1 = k then (k1, vs ++ [v]) :: rest else (k1, vs) :: mapAppend k v rest

/-- `defaultdict(set)` insertion: `d[k].add(v)` (insertion-ordered model
of the set; the serialization step sorts it). -/
def setAdd (k v : Str) : List (Str × List Str) → List (Str × List Str)
  | [] => [(k, [v])]
  | (k1, vs) :: rest =>
    if k1 = k then (k1, if v ∈ vs then vs else vs ++ [v]) :: rest
    else (k1, vs) :: setAdd k v rest

/-- The `title` key literal. -/
def titleKey : Str := "title".toList

/-- The body of the per-mention loop (lines 112-121 of the script):
record the display text under the target in `all_links`, record the
source file in `files_linking_to`, and if the target is not an existing
file also record the display text in `broken_links`. -/
def processMention (ex : List Str) (fname : Str) (st : ScanState) (m : Str × Str) : ScanState :=
  { st with
    all_links := mapAppend m.2 m.1 st.all_links
    files_linking_to := setAdd m.2 fname st.files_linking_to
    broken_links := if m.2 ∈ ex then st.broken_links else mapAppend m.2 m.1 st.broken_links }

/-- The body of the per-file loop (lines 92-121 of the script): an
unreadable file is skipped; otherwise a non-empty front-matter title is
recorded in `existing_notes` and every extracted link is processed. -/
def processFile (ex : List Str) (st : ScanState) (f : FileEntry) : ScanState :=
  match f.content with
  | none => st
  | some c =>
    let title := dictGet titleKey (extract_yaml_frontmatter c)
    let st1 := if title = [] then st
      else { st with existing_notes := dictInsert title f.name st.existing_notes }
    (extract_links c).foldl (processMention ex f.name) st1

/-- Helper for `dedupF`: drop elements already seen, keep the first
occurrence of each new element. -/
def dedupAux (seen : List Str) : List Str → List Str
  | [] => []
  | x :: xs => if x ∈ seen then dedupAux seen xs else x :: dedupAux (x :: seen) xs

/-- The title-recording step of `processFile` in isolation (a
proof-side name for the `st1` state of lines 106-107). -/
def fileTitleUpdate (n title : Str) (st : ScanState) : ScanState :=
  if title = [] then st
  else { st with existing_notes := dictInsert title n st.existing_notes }

/-- `list(dict.fromkeys(l))`: deduplication keeping first occurrences. -/
def dedupF (l : List Str) : List Str := dedupAux [] l

/-- Lexicographic comparison of strings by character code, as Python
`sorted` uses on strings. -/
def strLe : Str → Str → Bool
  | [], _ => true
  | _ :: _, [] => false
  | a :: as, b :: bs => if a = b then strLe as bs else decide (a < b)

/-- Insertion step of the sort used for `files_linking_to` values. -/
def insertSorted (x : Str) : List Str → List Str
  | [] => [x]
  | y :: ys => if strLe x y then x :: y :: ys else y :: insertSorted x ys

/-- Python `sorted` on a list of strings (insertion sort model). -/
def sortStr (l : List Str) : List Str := l.foldr insertSorted []

/-- The duplicate-removal pass over a map (lines 123-128). -/
def dedupVals (d : List (Str × List Str)) : List (Str × List Str) :=
  d.map (fun p => (p.1, dedupF p.2))

/-- The set-to-sorted-list serialization pass (lines 131-133). -/
def sortVals (d : List (Str × List Str)) : List (Str × List Str) :=
  d.map (fun p => (p.1, sortStr p.2))

/-- The body of `scan_notes` for an existing directory: the existing
filename set, the scanning fold, and the two post-processing passes. -/
def scanFiles (files : List FileEntry) : ScanState :=
  let ex := files.map (fun f => f.name)
  let st := files.foldl (processFile ex) ⟨[], [], [], []⟩
  ⟨st.existing_notes, dedupVals st.all_links, dedupVals st.broken_links,
    sortVals st.files_linking_to⟩

/-- `scan_notes` (lines 69-135 of the script): `none` models a missing
note directory, in which case both loops run over nothing and every map
stays empty. -/
def scan_notes : Option (List FileEntry) → ScanState
  | none => ⟨[], [], [], []⟩
  | some files => scanFiles files

/-- The raw accumulator state reached by the scanning loop, before the
deduplication and sorting passes (a proof-side abbreviation for the
inner fold of `scanFiles`). -/
def rawScan (files : List FileEntry) : ScanState :=
  files.foldl (processFile (files.map (fun f => f.name))) ⟨[], [], [], []⟩

/-- The `statistics` block of the JSON mapping (lines 148-153). -/
structure Statistics where
  total_existing_notes : Nat
  total_linked_files : Nat
  total_broken_links : Nat
  total_broken_link_mentions : Nat
deriving DecidableEq

/-- The structured artifact (lines 143-154). -/
structure JsonMapping where
  existing_notes : List (Str × Str)
  broken_links : List (Str × List Str)
  all_links : List (Str × List Str)
  files_linking_to : List (Str × List Str)
  statistics : Statistics
deriving DecidableEq

/-- `generate_json_mapping` (lines 138-154 of the script). -/
def generate_json_mapping (en : List (Str × Str)) (al bl flt : List (Str × List Str)) :
    JsonMapping :=
  ⟨en, bl, al, flt, ⟨en.length, al.length, bl.length, (bl.map (fun p => p.2.length)).sum⟩⟩

/-- The key list of an association-list map. -/
def keysOf {α : Type} : List (Str × α) → List Str
  | [] => []
  | p :: rest => p.1 :: keysOf rest

/-- The value list of a string dictionary. -/
def valuesOf : List (Str × Str) → List Str
  | [] => []
  | p :: rest => p.2 :: valuesOf rest

/-- Lookup in an association-list map. -/
def lookupL (k : Str) : List (Str × List Str) → Option (List Str)
  | [] => none
  | (k1, vs) :: rest => if k1 = k then some vs else lookupL k rest

/-- The targets contributed by one file: none for an unreadable file,
otherwise the target component of every extracted link. -/
def fileTargets (f : FileEntry) : List Str :=
  match f.content with
  | none => []
  | some c => (extract_links c).map (fun m => m.2)

/-- Every target filename mentioned anywhere during a scan. -/
def mentionedTargets (files : List FileEntry) : List Str := (files.map fileTargets).flatten

/-- The invariant maintained by the scanning loop of `scan_notes` over
the accumulator state, relative to the existing-filename list `ex`:
broken keys avoid existing filenames, broken keys are linked keys,
`all_links` and `files_linking_to` share their key list, value lists
are never empty, `existing_notes` values are scanned filenames, and for
any non-existing target the raw broken list equals the raw link list. -/
def ScanInv (ex : List Str) (st : ScanState) : Prop :=
  (∀ u ∈ keysOf st.broken_links, u ∉ ex) ∧
  (∀ u ∈ keysOf st.broken_links, u ∈ keysOf st.all_links) ∧
  keysOf st.all_links = keysOf st.files_linking_to ∧
  (∀ p ∈ st.all_links, p.2 ≠ []) ∧
  (∀ p ∈ st.files_linking_to, p.2 ≠ []) ∧
  (∀ v ∈ valuesOf st.existing_notes, v ∈ ex) ∧
  (∀ t, t ∉ ex → lookupL t st.broken_links = lookupL t st.all_links)

/-- A quote character in the sense of the specification. -/
def isQuoteChar (c : Char) : Bool := c == ('"') || c == squote

/-- Removes one leading quote character, if present. -/
def dropOneLeadingQuote : Str → Str
  | [] => []
  | c :: t => if isQuoteChar c then t else c :: t

/-- Follows the words of the specification sentence for claim C5: the
value with exactly one layer of surrounding quote characters stripped
(one leading and one trailing quote character at most). -/
def specStripOneQuoteLayer (v : Str) : Str :=
  (dropOneLeadingQuote (dropOneLeadingQuote v).reverse).reverse

/-! ### Lemmas about the association-list maps -/

theorem mem_keysOf_mapAppend (t k v : Str) (d : List (Str × List Str)) :
    t ∈ keysOf (mapAppend k v d) ↔ t = k ∨ t ∈ keysOf d := by
  induction d with
  | nil => simp [mapAppend, keysOf]
  | cons p rest ih =>
    obtain ⟨k1, vs⟩ := p
    by_cases h : k1 = k
    · subst h
      simp only [mapAppend, if_pos rfl, keysOf]
      simp only [List.mem_cons]
      tauto
    · simp only [mapAppend, if_neg h, keysOf, List.mem_cons, ih]
      tauto

theorem mem_keysOf_setAdd (t k v : Str) (d : List (Str × List Str)) :
    t ∈ keysOf (setAdd k v d) ↔ t = k ∨ t ∈ keysOf d := by
  induction d with
  | nil => simp [setAdd, keysOf]
  | cons p rest ih =>
    obtain ⟨k1, vs⟩ := p
    by_cases h : k1 = k
    · subst h
      simp only [setAdd, if_pos rfl, keysOf]
      simp only [List.mem_cons]
      tauto
    · simp only [setAdd, if_neg h, keysOf, List.mem_cons, ih]
      tauto

theorem keysOf_mapAppend (k v : Str) (d : List (Str × List Str)) :
    keysOf (mapAppend k v d) = if k ∈ keysOf d then keysOf d else keysOf d ++ [k] := by
  induction d with
  | nil => simp [mapAppend, keysOf]
  | cons p rest ih =>
    obtain ⟨k1, vs⟩ := p
    by_cases h : k1 = k
    · subst h
      simp [mapAppend, keysOf]
    · simp only [mapAppend, if_neg h, keysOf, ih]
      have hkk1 : ¬ k = k1 := fun he => h he.symm
      by_cases hk : k ∈ keysOf rest
      · simp [hk]
      · simp [hk, hkk1]

theorem keysOf_setAdd (k v : Str) (d : List (Str × List Str)) :
    keysOf (setAdd k v d) = if k ∈ keysOf d then keysOf d else keysOf d ++ [k] := by
  induction d with
  | nil => simp [setAdd, keysOf]
  | cons p rest ih =>
    obtain ⟨k1, vs⟩ := p
    by_cases h : k1 = k
    · subst h
      simp [setAdd, keysOf]
    · simp only [setAdd, if_neg h, keysOf, ih]
      have hkk1 : ¬ k = k1 := fun he => h he.symm
      by_cases hk : k ∈ keysOf rest
      · simp [hk]
      · simp [hk, hkk1]

theorem lookupL_mapAppend_self (k v : Str) (d : List (Str × List Str)) :
    lookupL k (mapAppend k v d) = some ((lookupL k d).getD [] ++ [v]) := by
  induction d with
  | nil => simp [mapAppend, lookupL]
  | cons p rest ih =>
    obtain ⟨k1, vs⟩ := p
    by_cases h : k1 = k
    · subst h
      simp [mapAppend, lookupL]
    · simp [mapAppend, h, lookupL, ih]

theorem lookupL_mapAppend_ne (t k v : Str) (d : List (Str × List Str)) (h : ¬ t = k) :
    lookupL t (mapAppend k v d) = lookupL t d := by
  induction d with
  | nil =>
    have : ¬ k = t := fun he => h he.symm
    simp [mapAppend, lookupL, this]
  | cons p rest ih =>
    obtain ⟨k1, vs⟩ := p
    by_cases hk : k1 = k
    · subst hk
      have : ¬ k1 = t := fun he => h he.symm
      simp [mapAppend, lookupL, this]
    · by_cases ht : k1 = t
      · subst ht
        simp [mapAppend, hk, lookupL]
      · simp [mapAppend, hk, lookupL, ht, ih]

theorem lookupL_isSome_iff (t : Str) (d : List (Str × List Str)) :
    (lookupL t d).isSome = true ↔ t ∈ keysOf d := by
  induction d with
  | nil => simp [lookupL, keysOf]
  | cons p rest ih =>
    obtain ⟨k1, vs⟩ := p
    by_cases h : k1 = t
    · simp [lookupL, h, keysOf]
    · have : ¬ t = k1 := fun he => h he.symm
      simp [lookupL, h, keysOf, ih, this]

theorem lookupL_mapVals (f : List Str → List Str) (t : Str) (d : List (Str × List Str)) :
    lookupL t (d.map (fun p => (p.1, f p.2))) = (lookupL t d).map f := by
  induction d with
  | nil => simp [lookupL]
  | cons p rest ih =>
    obtain ⟨k1, vs⟩ := p
    by_cases h : k1 = t
    · simp [lookupL, h]
    · simp [lookupL, h, ih]

theorem keysOf_mapVals (f : List Str → List Str) (d : List (Str × List Str)) :
    keysOf (d.map (fun p => (p.1, f p.2))) = keysOf d := by
  induction d with
  | nil => simp [keysOf]
  | cons p rest ih => simp [keysOf, ih]

theorem valuesOf_dictInsert (k w v : Str) (d : List (Str × Str))
    (h : v ∈ valuesOf (dictInsert k w d)) : v = w ∨ v ∈ valuesOf d := by
  induction d with
  | nil =>
    simp [dictInsert, valuesOf] at h
    exact Or.inl h
  | cons p rest ih =>
    obtain ⟨k1, v1⟩ := p
    by_cases hk : k1 = k
    · subst hk
      simp only [dictInsert, if_pos rfl, valuesOf, List.mem_cons] at h
      rcases h with h | h
      · exact Or.inl h
      · exact Or.inr (by simp [valuesOf, List.mem_cons]; tauto)
    · simp only [dictInsert, if_neg hk, valuesOf, List.mem_cons] at h
      rcases h with h | h
      · exact Or.inr (by simp [valuesOf, List.mem_cons, h])
      · rcases ih h with h2 | h2
        · exact Or.inl h2
        · exact Or.inr (by simp [valuesOf, List.mem_cons]; tauto)

theorem mapAppend_vals_ne (k v : Str) (d : List (Str × List Str))
    (h : ∀ p ∈ d, p.2 ≠ ([] : List Str)) : ∀ p ∈ mapAppend k v d, p.2 ≠ [] := by
  induction d with
  | nil =>
    intro p hp
    obtain ⟨pk, pv⟩ := p
    simp only [mapAppend, List.mem_singleton, Prod.mk.injEq] at hp
    obtain ⟨h1, h2⟩ := hp
    subst h2
    simp
  | cons q rest ih =>
    obtain ⟨k1, vs⟩ := q
    intro p hp
    by_cases hk : k1 = k
    · subst hk
      simp only [mapAppend, List.mem_cons, ite_true, eq_self_iff_true, if_true] at hp
      rcases hp with hp | hp
      · subst hp
        simp
      · exact h p (List.mem_cons_of_mem _ hp)
    · simp only [mapAppend, if_neg hk, List.mem_cons] at hp
      rcases hp with hp | hp
      · subst hp
        exact h _ (List.mem_cons_self _ _)
      · exact ih (fun q hq => h q (List.mem_cons_of_mem _ hq)) p hp

theorem setAdd_vals_ne (k v : Str) (d : List (Str × List Str))
    (h : ∀ p ∈ d, p.2 ≠ ([] : List Str)) : ∀ p ∈ setAdd k v d, p.2 ≠ [] := by
  induction d with
  | nil =>
    intro p hp
    obtain ⟨pk, pv⟩ := p
    simp only [setAdd, List.mem_singleton, Prod.mk.injEq] at hp
    obtain ⟨h1, h2⟩ := hp
    subst h2
    simp
  | cons q rest ih =>
    obtain ⟨k1, vs⟩ := q
    intro p hp
    by_cases hk : k1 = k
    · subst hk
      simp only [setAdd, List.mem_cons, ite_true, eq_self_iff_true, if_true] at hp
      rcases hp with hp | hp
      · subst hp
        by_cases hv : v ∈ vs
        · simpa [hv] using h _ (List.mem_cons_self _ _)
        · simp [hv]
      · exact h p (List.mem_cons_of_mem _ hp)
    · simp only [setAdd, if_neg hk, List.mem_cons] at hp
      rcases hp with hp | hp
      · subst hp
        exact h _ (List.mem_cons_self _ _)
      · exact ih (fun q hq => h q (List.mem_cons_of_mem _ hq)) p hp

theorem dedupF_ne_nil (l : List Str) (h : l ≠ []) : dedupF l ≠ [] := by
  cases l with
  | nil => exact absurd rfl h
  | cons x xs => simp [dedupF, dedupAux]

theorem insertSorted_ne_nil (x : Str) (l : List Str) : insertSorted x l ≠ [] := by
  cases l with
  | nil => simp [insertSorted]
  | cons y ys =>
    unfold insertSorted
    by_cases h : strLe x y = true <;> simp [h]

theorem sortStr_ne_nil (l : List Str) (h : l ≠ []) : sortStr l ≠ [] := by
  cases l with
  | nil => exact absurd rfl h
  | cons x xs => exact insertSorted_ne_nil x (sortStr xs)

theorem lookupL_dedupVals (t : Str) (d : List (Str × List Str)) :
    lookupL t (dedupVals d) = (lookupL t d).map dedupF :=
  lookupL_mapVals dedupF t d

theorem keysOf_dedupVals (d : List (Str × List Str)) : keysOf (dedupVals d) = keysOf d :=
  keysOf_mapVals dedupF d

theorem keysOf_sortVals (d : List (Str × List Str)) : keysOf (sortVals d) = keysOf d :=
  keysOf_mapVals sortStr d

/-! ### The scanning-loop invariant -/

theorem scanInv_init (ex : List Str) : ScanInv ex ⟨[], [], [], []⟩ := by
  refine ⟨?_, ?_, rfl, ?_, ?_, ?_, ?_⟩ <;> simp [keysOf, valuesOf, lookupL]

theorem scanInv_mention (ex : List Str) (fn : Str) (st : ScanState) (m : Str × Str)
    (h : ScanInv ex st) : ScanInv ex (processMention ex fn st m) := by
  obtain ⟨h1, h2, h3, h4, h5, h6, h7⟩ := h
  have hal : (processMention ex fn st m).all_links = mapAppend m.2 m.1 st.all_links := rfl
  have hflt : (processMention ex fn st m).files_linking_to =
      setAdd m.2 fn st.files_linking_to := rfl
  have hen : (processMention ex fn st m).existing_notes = st.existing_notes := rfl
  have hbl : (processMention ex fn st m).broken_links =
      if m.2 ∈ ex then st.broken_links else mapAppend m.2 m.1 st.broken_links := rfl
  by_cases hm : m.2 ∈ ex
  · refine ⟨?_, ?_, ?_, ?_, ?_, ?_, ?_⟩
    · intro u hu
      rw [hbl, if_pos hm] at hu
      exact h1 u hu
    · intro u hu
      rw [hbl, if_pos hm] at hu
      rw [hal, mem_keysOf_mapAppend]
      exact Or.inr (h2 u hu)
    · rw [hal, hflt, keysOf_mapAppend, keysOf_setAdd, h3]
    · rw [hal]
      exact mapAppend_vals_ne _ _ _ h4
    · rw [hflt]
      exact setAdd_vals_ne _ _ _ h5
    · rw [hen]
      exact h6
    · intro t ht
      rw [hbl, if_pos hm, hal]
      have htm : ¬ t = m.2 := fun he => ht (he ▸ hm)
      rw [lookupL_mapAppend_ne t m.2 m.1 st.all_links htm]
      exact h7 t ht
  · refine ⟨?_, ?_, ?_, ?_, ?_, ?_, ?_⟩
    · intro u hu
      rw [hbl, if_neg hm] at hu
      rw [mem_keysOf_mapAppend] at hu
      rcases hu with hu | hu
      · subst hu
        exact hm
      · exact h1 u hu
    · intro u hu
      rw [hbl, if_neg hm] at hu
      rw [mem_keysOf_mapAppend] at hu
      rw [hal, mem_keysOf_mapAppend]
      rcases hu with hu | hu
      · exact Or.inl hu
      · exact Or.inr (h2 u hu)
    · rw [hal, hflt, keysOf_mapAppend, keysOf_setAdd, h3]
    · rw [hal]
      exact mapAppend_vals_ne _ _ _ h4
    · rw [hflt]
      exact setAdd_vals_ne _ _ _ h5
    · rw [hen]
      exact h6
    · intro t ht
      rw [hbl, if_neg hm, hal]
      by_cases htm : t = m.2
      · subst htm
        rw [lookupL_mapAppend_self, lookupL_mapAppend_self, h7 m.2 ht]
      · rw [lookupL_mapAppend_ne t m.2 m.1 st.broken_links htm,
          lookupL_mapAppend_ne t m.2 m.1 st.all_links htm]
        exact h7 t ht

theorem scanInv_links (ex : List Str) (fn : Str) (links : List (Str × Str)) :
    ∀ st, ScanInv ex st → ScanInv ex (links.foldl (processMention ex fn) st) := by
  induction links with
  | nil =>
    intro st h
    simpa using h
  | cons m ms ih =>
    intro st h
    rw [List.foldl_cons]
    exact ih _ (scanInv_mention ex fn st m h)

theorem scanInv_file (ex : List Str) (st : ScanState) (f : FileEntry)
    (hf : f.name ∈ ex) (h : ScanInv ex st) : ScanInv ex (processFile ex st f) := by
  obtain ⟨n, oc⟩ := f
  cases oc with
  | none => simpa [processFile] using h
  | some c =>
    have hred : processFile ex st ⟨n, some c⟩ =
        (extract_links c).foldl (processMention ex n)
          (fileTitleUpdate n (dictGet titleKey (extract_yaml_frontmatter c)) st) := rfl
    rw [hred]
    apply scanInv_links
    unfold fileTitleUpdate
    by_cases hT : dictGet titleKey (extract_yaml_frontmatter c) = []
    · rw [if_pos hT]
      exact h
    · rw [if_neg hT]
      obtain ⟨h1, h2, h3, h4, h5, h6, h7⟩ := h
      refine ⟨h1, h2, h3, h4, h5, ?_, h7⟩
      intro v hv
      rcases valuesOf_dictInsert _ _ _ _ hv with hv | hv
      · subst hv
        exact hf
      · exact h6 v hv

theorem scanInv_fold (ex : List Str) (files : List FileEntry)
    (hfs : ∀ f ∈ files, f.name ∈ ex) :
    ∀ st, ScanInv ex st → ScanInv ex (files.foldl (processFile ex) st) := by
  induction files with
  | nil =>
    intro st h
    simpa using h
  | cons f fs ih =>
    intro st h
    rw [List.foldl_cons]
    exact ih (fun g hg => hfs g (List.mem_cons_of_mem _ hg)) _
      (scanInv_file ex st f (hfs f (List.mem_cons_self _ _)) h)

theorem scanInv_raw (files : List FileEntry) :
    ScanInv (files.map (fun f => f.name)) (rawScan files) :=
  scanInv_fold _ files (fun f hf => List.mem_map_of_mem _ hf) _ (scanInv_init _)

/-! ### Key accumulation along the scan -/

theorem mem_keysOf_mention_al (ex : List Str) (fn : Str) (st : ScanState) (m : Str × Str)
    (t : Str) :
    t ∈ keysOf ((processMention ex fn st m).all_links) ↔ t = m.2 ∨ t ∈ keysOf st.all_links :=
  mem_keysOf_mapAppend t m.2 m.1 st.all_links

theorem mem_keysOf_links_al (ex : List Str) (fn : Str) (links : List (Str × Str)) :
    ∀ st t, t ∈ keysOf ((links.foldl (processMention ex fn) st).all_links) ↔
      t ∈ links.map (fun m => m.2) ∨ t ∈ keysOf st.all_links := by
  induction links with
  | nil =>
    intro st t
    simp
  | cons m ms ih =>
    intro st t
    rw [List.foldl_cons, ih, mem_keysOf_mention_al]
    simp only [List.map_cons, List.mem_cons]
    tauto

theorem mem_keysOf_file_al (ex : List Str) (f : FileEntry) :
    ∀ st t, t ∈ keysOf ((processFile ex st f).all_links) ↔
      t ∈ fileTargets f ∨ t ∈ keysOf st.all_links := by
  obtain ⟨n, oc⟩ := f
  cases oc with
  | none =>
    intro st t
    simp [processFile, fileTargets]
  | some c =>
    intro st t
    have hred : processFile ex st ⟨n, some c⟩ =
        (extract_links c).foldl (processMention ex n)
          (fileTitleUpdate n (dictGet titleKey (extract_yaml_frontmatter c)) st) := rfl
    rw [hred, mem_keysOf_links_al]
    have hsame : (fileTitleUpdate n (dictGet titleKey (extract_yaml_frontmatter c))
        st).all_links = st.all_links := by
      unfold fileTitleUpdate
      split <;> rfl
    rw [hsame]
    rfl

theorem mem_keysOf_fold_al (ex : List Str) (files : List FileEntry) :
    ∀ st t, t ∈ keysOf ((files.foldl (processFile ex) st).all_links) ↔
      t ∈ mentionedTargets files ∨ t ∈ keysOf st.all_links := by
  induction files with
  | nil =>
    intro st t
    simp [mentionedTargets]
  | cons f fs ih =>
    intro st t
    rw [List.foldl_cons, ih, mem_keysOf_file_al]
    simp only [mentionedTargets, List.map_cons, List.flatten_cons, List.mem_append]
    tauto

/-! ### Lemmas about splitting and the front-matter delimiter -/

theorem drop_length_append (l1 l2 : List Char) : (l1 ++ l2).drop l1.length = l2 := by
  induction l1 with
  | nil => rfl
  | cons a as ih => simpa using ih

theorem isPref_self_append (s t : Str) : isPref s (s ++ t) = true := by
  induction s with
  | nil => rfl
  | cons a as ih => simp [isPref, ih]

theorem splitFirst_prefix (sep t : Str) (hs : sep ≠ []) :
    splitFirst sep (sep ++ t) = some ([], t) := by
  cases sep with
  | nil => exact absurd rfl hs
  | cons a as =>
    show splitFirst (a :: as) (a :: (as ++ t)) = some ([], t)
    unfold splitFirst
    rw [← List.cons_append, isPref_self_append]
    simp [drop_length_append]

theorem splitFirst_eq_none_of_not_contains (sep s : Str) (h : containsSub sep s = false) :
    splitFirst sep s = none := by
  unfold containsSub at h
  cases hs : splitFirst sep s with
  | none => rfl
  | some p =>
    rw [hs] at h
    simp at h

theorem pySplitMax_succ (n : Nat) (sep s : Str) :
    pySplitMax (n + 1) sep s =
      match splitFirst sep s with
      | none => [s]
      | some (p, q) => p :: pySplitMax n sep q := rfl

theorem extract_yaml_no_close (rest : Str) (h : containsSub fmDelim rest = false) :
    extract_yaml_frontmatter (fmDelim ++ rest) = [] := by
  have hsf := splitFirst_eq_none_of_not_contains fmDelim rest h
  have hpref : isPref fmDelim (fmDelim ++ rest) = true := isPref_self_append _ _
  have h1 : pySplitMax 1 fmDelim rest = [rest] := by
    rw [show (1 : Nat) = 0 + 1 from rfl, pySplitMax_succ, hsf]
  have h2 : pySplitMax 2 fmDelim (fmDelim ++ rest) = [[], rest] := by
    rw [show (2 : Nat) = 1 + 1 from rfl, pySplitMax_succ,
      splitFirst_prefix fmDelim rest (by decide)]
    show [] :: pySplitMax 1 fmDelim rest = [[], rest]
    rw [h1]
  unfold extract_yaml_frontmatter
  rw [hpref, h2]
  rfl

theorem dropWhile_append_ite (p : Char → Bool) (x y : List Char) :
    (x ++ y).dropWhile p =
      if x.dropWhile p = [] then y.dropWhile p else x.dropWhile p ++ y := by
  induction x with
  | nil => simp
  | cons a xs ih =>
    by_cases h : p a = true
    · simp [List.dropWhile_cons, h, ih]
    · simp [List.dropWhile_cons, h]

theorem dropWhile_dropWhile (p : Char → Bool) (l : List Char) :
    (l.dropWhile p).dropWhile p = l.dropWhile p := by
  induction l with
  | nil => rfl
  | cons a as ih =>
    by_cases h : p a = true
    · simp [List.dropWhile_cons, h, ih]
    · simp [List.dropWhile_cons, h]

theorem mem_of_mem_dropWhile (p : Char → Bool) (c : Char) (l : List Char)
    (h : c ∈ l.dropWhile p) : c ∈ l := by
  induction l with
  | nil => simpa using h
  | cons a as ih =>
    by_cases hp : p a = true
    · rw [List.dropWhile_cons, if_pos hp] at h
      exact List.mem_cons_of_mem _ (ih h)
    · rw [List.dropWhile_cons, if_neg hp] at h
      exact h

theorem takeWhile_append_all (p : Char → Bool) (l1 l2 : List Char)
    (h : ∀ c ∈ l1, p c = true) : (l1 ++ l2).takeWhile p = l1 ++ l2.takeWhile p := by
  induction l1 with
  | nil => simp
  | cons a as ih =>
    have ha : p a = true := h a (List.mem_cons_self _ _)
    simp only [List.cons_append, List.takeWhile_cons, ha, if_true]
    rw [ih (fun c hc => h c (List.mem_cons_of_mem _ hc))]

theorem dropWhile_append_all (p : Char → Bool) (l1 l2 : List Char)
    (h : ∀ c ∈ l1, p c = true) : (l1 ++ l2).dropWhile p = l2.dropWhile p := by
  induction l1 with
  | nil => simp
  | cons a as ih =>
    have ha : p a = true := h a (List.mem_cons_self _ _)
    simp only [List.cons_append, List.dropWhile_cons, ha, if_true]
    exact ih (fun c hc => h c (List.mem_cons_of_mem _ hc))

theorem rstrip_append (a b2 : Str) :
    rstrip (a ++ b2) = if rstrip b2 = [] then rstrip a else a ++ rstrip b2 := by
  unfold rstrip
  rw [List.reverse_append, dropWhile_append_ite]
  by_cases h : b2.reverse.dropWhile isWS = []
  · simp [h]
  · have h2 : ¬ (b2.reverse.dropWhile isWS).reverse = [] := by
      simpa using h
    simp [h, h2]

theorem rstrip_append_ws (l : Str) (c : Char) (hc : isWS c = true) :
    rstrip (l ++ [c]) = rstrip l := by
  rw [rstrip_append]
  simp [rstrip, List.dropWhile_cons, hc]

theorem rstrip_idem (l : Str) : rstrip (rstrip l) = rstrip l := by
  unfold rstrip
  rw [List.reverse_reverse, dropWhile_dropWhile]

theorem mem_of_mem_rstrip (c : Char) (l : Str) (h : c ∈ rstrip l) : c ∈ l := by
  unfold rstrip at h
  rw [List.mem_reverse] at h
  have h2 := mem_of_mem_dropWhile _ _ _ h
  rwa [List.mem_reverse] at h2

theorem lstrip_cons_ws (c : Char) (l : Str) (hc : isWS c = true) :
    lstrip (c :: l) = lstrip l := by
  simp [lstrip, List.dropWhile_cons, hc]

theorem lstrip_cons_not (c : Char) (l : Str) (hc : isWS c = false) :
    lstrip (c :: l) = c :: l := by
  simp [lstrip, List.dropWhile_cons, hc]

theorem splitFirst_single_none (c : Char) (s : Str) (h : c ∉ s) :
    splitFirst [c] s = none := by
  induction s with
  | nil => rfl
  | cons a as ih =>
    have hna : ¬ (c = a) := fun he => h (he ▸ List.mem_cons_self a as)
    have hrec : splitFirst [c] as = none :=
      ih (fun hm => h (List.mem_cons_of_mem _ hm))
    show splitFirst [c] (a :: as) = none
    simp [splitFirst, isPref, hna, hrec]

theorem pySplit_no_sep (s : Str) (c : Char) (h : c ∉ s) : pySplit s [c] = [s] := by
  unfold pySplit
  rw [pySplitMax_succ, splitFirst_single_none c s h]

theorem isPref_take (sep : Str) : ∀ l : Str, isPref sep l = isPref sep (l.take sep.length) := by
  induction sep with
  | nil =>
    intro l
    rfl
  | cons a as ih =>
    intro l
    cases l with
    | nil => rfl
    | cons b bs =>
      show isPref (a :: as) (b :: bs) = isPref (a :: as) ((b :: bs).take (as.length + 1))
      rw [List.take_succ_cons]
      by_cases h : a = b
      · simp [isPref, h, ih bs]
      · simp [isPref, h]

theorem take_two_boundary (m1 b : Str) :
    (m1 ++ (fmDelim ++ b)).take 2 = (m1 ++ [('-'), ('-')]).take 2 := by
  cases m1 with
  | nil => rfl
  | cons x m2 =>
    cases m2 with
    | nil => rfl
    | cons y m3 => rfl

theorem splitFirst_boundary (b : Str) :
    ∀ m : Str, splitFirst fmDelim (m ++ [('-'), ('-')]) = none →
      splitFirst fmDelim (m ++ (fmDelim ++ b)) = some (m, b) := by
  intro m
  induction m with
  | nil =>
    intro _
    simpa using splitFirst_prefix fmDelim b (by decide)
  | cons c m1 ih =>
    intro h
    rw [show ((c :: m1) ++ [('-'), ('-')]) = c :: (m1 ++ [('-'), ('-')]) from rfl] at h
    rw [show splitFirst fmDelim (c :: (m1 ++ [('-'), ('-')])) =
        (if isPref fmDelim (c :: (m1 ++ [('-'), ('-')])) = true
         then some ([], (c :: (m1 ++ [('-'), ('-')])).drop fmDelim.length)
         else match splitFirst fmDelim (m1 ++ [('-'), ('-')]) with
           | none => none
           | some (p, q) => some (c :: p, q)) from rfl] at h
    by_cases hp : isPref fmDelim (c :: (m1 ++ [('-'), ('-')])) = true
    · rw [if_pos hp] at h
      simp at h
    · rw [if_neg hp] at h
      have hrec : splitFirst fmDelim (m1 ++ [('-'), ('-')]) = none := by
        cases hr : splitFirst fmDelim (m1 ++ [('-'), ('-')]) with
        | none => rfl
        | some pq =>
          rw [hr] at h
          obtain ⟨p, q⟩ := pq
          simp at h
      have hp2 : ¬ isPref fmDelim (c :: (m1 ++ (fmDelim ++ b))) = true := by
        intro hc
        apply hp
        rw [isPref_take] at hc
        rw [isPref_take]
        have ht : (c :: (m1 ++ (fmDelim ++ b))).take fmDelim.length =
            (c :: (m1 ++ [('-'), ('-')])).take fmDelim.length := by
          show (c :: (m1 ++ (fmDelim ++ b))).take 3 = (c :: (m1 ++ [('-'), ('-')])).take 3
          rw [List.take_succ_cons, List.take_succ_cons, take_two_boundary]
        rw [ht] at hc
        exact hc
      show splitFirst fmDelim (c :: (m1 ++ (fmDelim ++ b))) = some (c :: m1, b)
      rw [show splitFirst fmDelim (c :: (m1 ++ (fmDelim ++ b))) =
          (if isPref fmDelim (c :: (m1 ++ (fmDelim ++ b))) = true
           then some ([], (c :: (m1 ++ (fmDelim ++ b))).drop fmDelim.length)
           else match splitFirst fmDelim (m1 ++ (fmDelim ++ b)) with
             | none => none
             | some (p, q) => some (c :: p, q)) from rfl]
      rw [if_neg hp2, ih hrec]

theorem en_links_fold (ex : List Str) (fn : Str) (links : List (Str × Str)) :
    ∀ st, ((links.foldl (processMention ex fn) st)).existing_notes = st.existing_notes := by
  induction links with
  | nil =>
    intro st
    rfl
  | cons m ms ih =>
    intro st
    rw [List.foldl_cons, ih]
    rfl

theorem scanFiles_congr_mid (pre post : List FileEntry) (a b : FileEntry)
    (hn : a.name = b.name)
    (hstep : ∀ ex st, processFile ex st a = processFile ex st b) :
    scanFiles (pre ++ a :: post) = scanFiles (pre ++ b :: post) := by
  have hname : (pre ++ a :: post).map (fun f => f.name) =
      (pre ++ b :: post).map (fun f => f.name) := by
    simp [hn]
  have hfold : ∀ ex, (pre ++ a :: post).foldl (processFile ex) ⟨[], [], [], []⟩ =
      (pre ++ b :: post).foldl (processFile ex) ⟨[], [], [], []⟩ := by
    intro ex
    rw [List.foldl_append, List.foldl_append, List.foldl_cons, List.foldl_cons, hstep]
  simp only [scanFiles]
  rw [hname, hfold]

/-! ### Claim theorems -/

/-- Claim C1: for every scanned directory and every target filename that
some note mentions but that is not among the scanned filenames, the
builder's `broken_links` map contains the target and its entry equals
the deduplicated first-occurrence-order display-text list stored in
`all_links` for that target. -/
theorem claim_broken_equals_all_links (files : List FileEntry) (t : Str)
    (hab : t ∉ files.map (fun f => f.name))
    (hmem : t ∈ keysOf (scan_notes (some files)).all_links) :
    t ∈ keysOf (scan_notes (some files)).broken_links ∧
      lookupL t (scan_notes (some files)).broken_links =
        lookupL t (scan_notes (some files)).all_links := by
  have hal : (scan_notes (some files)).all_links = dedupVals (rawScan files).all_links := rfl
  have hbl : (scan_notes (some files)).broken_links =
      dedupVals (rawScan files).broken_links := rfl
  have h7 := (scanInv_raw files).2.2.2.2.2.2 t hab
  have heq : lookupL t (scan_notes (some files)).broken_links =
      lookupL t (scan_notes (some files)).all_links := by
    rw [hal, hbl, lookupL_dedupVals, lookupL_dedupVals, h7]
  refine ⟨?_, heq⟩
  rw [hbl, keysOf_dedupVals]
  rw [hal, keysOf_dedupVals] at hmem
  rw [← lookupL_isSome_iff] at hmem
  rw [← lookupL_isSome_iff, h7]
  exact hmem

/-- Witness for claim C1 at a concrete directory: `b.md` is mentioned
three times with two distinct texts and never scanned. -/
theorem claim_broken_equals_all_links_w :
    ("b.md").toList ∈ keysOf (scan_notes (some [⟨("a.md").toList,
        some (("[A](b.md) [B](b.md) [A](b.md)").toList)⟩])).broken_links ∧
      lookupL (("b.md").toList) (scan_notes (some [⟨("a.md").toList,
          some (("[A](b.md) [B](b.md) [A](b.md)").toList)⟩])).broken_links =
        lookupL (("b.md").toList) (scan_notes (some [⟨("a.md").toList,
            some (("[A](b.md) [B](b.md) [A](b.md)").toList)⟩])).all_links :=
  claim_broken_equals_all_links
    [⟨("a.md").toList, some (("[A](b.md) [B](b.md) [A](b.md)").toList)⟩]
    (("b.md").toList) (by decide) (by decide)

/-- Claim C2: the key set of `all_links` equals the set of all target
filenames mentioned anywhere, the key set of `broken_links` is a subset
of the key set of `all_links`, and no key of `broken_links` occurs
among the filename values of `existing_notes`. -/
theorem claim_key_set_invariants (files : List FileEntry) (t : Str) :
    (t ∈ keysOf (scan_notes (some files)).all_links ↔ t ∈ mentionedTargets files) ∧
    (t ∈ keysOf (scan_notes (some files)).broken_links →
      t ∈ keysOf (scan_notes (some files)).all_links) ∧
    (t ∈ keysOf (scan_notes (some files)).broken_links →
      t ∉ valuesOf (scan_notes (some files)).existing_notes) := by
  have hal : (scan_notes (some files)).all_links = dedupVals (rawScan files).all_links := rfl
  have hbl : (scan_notes (some files)).broken_links =
      dedupVals (rawScan files).broken_links := rfl
  have hen : (scan_notes (some files)).existing_notes = (rawScan files).existing_notes := rfl
  obtain ⟨h1, h2, h3, h4, h5, h6, h7⟩ := scanInv_raw files
  refine ⟨?_, ?_, ?_⟩
  · rw [hal, keysOf_dedupVals]
    have hiff := mem_keysOf_fold_al (files.map (fun f => f.name)) files ⟨[], [], [], []⟩ t
    simpa [rawScan, keysOf] using hiff
  · intro hu
    rw [hbl, keysOf_dedupVals] at hu
    rw [hal, keysOf_dedupVals]
    exact h2 t hu
  · intro hu hv
    rw [hbl, keysOf_dedupVals] at hu
    rw [hen] at hv
    exact h1 t hu (h6 t hv)

/-- Witness for claim C2 at a concrete directory with one broken
target. -/
theorem claim_key_set_invariants_w :
    (("b.md").toList ∈ keysOf (scan_notes (some [⟨("a.md").toList,
        some (("[A](b.md)").toList)⟩])).all_links ↔
      ("b.md").toList ∈ mentionedTargets [⟨("a.md").toList,
        some (("[A](b.md)").toList)⟩]) ∧
    ("b.md").toList ∈ keysOf (scan_notes (some [⟨("a.md").toList,
        some (("[A](b.md)").toList)⟩])).all_links ∧
    ("b.md").toList ∉ valuesOf (scan_notes (some [⟨("a.md").toList,
        some (("[A](b.md)").toList)⟩])).existing_notes := by
  have h := claim_key_set_invariants [⟨("a.md").toList, some (("[A](b.md)").toList)⟩]
    (("b.md").toList)
  exact ⟨h.1, h.2.1 (by decide), h.2.2 (by decide)⟩

/-- Claim C3: in every generated structured artifact the stored
statistics can be re-derived from the artifact's own `broken_links`
map: `total_broken_links` is its number of keys and
`total_broken_link_mentions` is the sum of its value lengths. -/
theorem claim_statistics_rederivable (en : List (Str × Str))
    (al bl flt : List (Str × List Str)) :
    (generate_json_mapping en al bl flt).statistics.total_broken_links =
      (generate_json_mapping en al bl flt).broken_links.length ∧
    (generate_json_mapping en al bl flt).statistics.total_broken_link_mentions =
      ((generate_json_mapping en al bl flt).broken_links.map (fun p => p.2.length)).sum :=
  ⟨rfl, rfl⟩

/-- Claim C4: for a file containing the mentions `[A](./x.md)` and
`[B](x.md)`, the two mentions normalize to the same target `x.md`, the
`all_links` entry is the list `A`, `B` in first-seen order, and the
mentioning file appears in `files_linking_to` for `x.md`. -/
theorem claim_dotslash_normalization :
    extract_links (("[A](./x.md) and [B](x.md)").toList) =
      [(("A").toList, ("x.md").toList), (("B").toList, ("x.md").toList)] ∧
    (scan_notes (some [⟨("note.md").toList,
        some (("[A](./x.md) and [B](x.md)").toList)⟩])).all_links =
      [(("x.md").toList, [("A").toList, ("B").toList])] ∧
    (scan_notes (some [⟨("note.md").toList,
        some (("[A](./x.md) and [B](x.md)").toList)⟩])).files_linking_to =
      [(("x.md").toList, [("note.md").toList])] := by
  refine ⟨by decide, by decide, by decide⟩

theorem yaml_title_only (X : Str) (hnl : ('\n') ∉ X) :
    dictGet titleKey ((pySplit (pyStrip (('\n') :: (("title: ").toList ++ X ++ [('\n')])))
      [('\n')]).foldl parseFMLine []) = pyStripValue X := by
  by_cases hX : rstrip X = []
  · have h1 : rstrip (("title: ").toList ++ X) = ("title:").toList := by
      rw [rstrip_append, if_pos hX]
      decide
    have h2 : rstrip (('\n') :: (("title: ").toList ++ X ++ [('\n')])) =
        ('\n') :: ("title:").toList := by
      rw [show (('\n') :: (("title: ").toList ++ X ++ [('\n')])) =
        (('\n') :: (("title: ").toList ++ X)) ++ [('\n')] from rfl]
      rw [rstrip_append_ws _ _ (by decide)]
      show rstrip ([('\n')] ++ (("title: ").toList ++ X)) = _
      rw [rstrip_append, h1, if_neg (by decide)]
      rfl
    have h3 : pyStrip (('\n') :: (("title: ").toList ++ X ++ [('\n')])) = ("title:").toList := by
      unfold pyStrip
      rw [h2]
      decide
    have h4 : pyStripValue X = [] := by
      unfold pyStripValue pyStrip
      rw [hX]
      rfl
    rw [h3, h4]
    decide
  · have h1 : rstrip (("title: ").toList ++ X) = ("title: ").toList ++ rstrip X := by
      rw [rstrip_append, if_neg hX]
    have hne2 : ¬ (("title: ").toList ++ rstrip X = []) := by
      intro hc
      exact hX (List.append_eq_nil.mp hc).2
    have h2 : rstrip (('\n') :: (("title: ").toList ++ X ++ [('\n')])) =
        ('\n') :: (("title: ").toList ++ rstrip X) := by
      rw [show (('\n') :: (("title: ").toList ++ X ++ [('\n')])) =
        (('\n') :: (("title: ").toList ++ X)) ++ [('\n')] from rfl]
      rw [rstrip_append_ws _ _ (by decide)]
      show rstrip ([('\n')] ++ (("title: ").toList ++ X)) = _
      rw [rstrip_append, h1, if_neg hne2]
      rfl
    have h3 : pyStrip (('\n') :: (("title: ").toList ++ X ++ [('\n')])) =
        ("title: ").toList ++ rstrip X := by
      unfold pyStrip
      rw [h2, lstrip_cons_ws _ _ (by decide)]
      show lstrip (('t') :: (("itle: ").toList ++ rstrip X)) =
        ('t') :: (("itle: ").toList ++ rstrip X)
      exact lstrip_cons_not _ _ (by decide)
    have hninl : ('\n') ∉ ("title: ").toList ++ rstrip X := by
      intro hc
      rcases List.mem_append.mp hc with hc | hc
      · exact absurd hc (by decide)
      · exact hnl (mem_of_mem_rstrip _ _ hc)
    have h5 : pySplit (("title: ").toList ++ rstrip X) [('\n')] =
        [("title: ").toList ++ rstrip X] := pySplit_no_sep _ _ hninl
    rw [h3, h5]
    show dictGet titleKey (parseFMLine [] (("title: ").toList ++ rstrip X)) = pyStripValue X
    have hcol : (':') ∈ ("title: ").toList ++ rstrip X :=
      List.mem_append.mpr (Or.inl (by decide))
    unfold parseFMLine
    rw [if_pos hcol]
    have htake : (("title: ").toList ++ rstrip X).takeWhile (fun c => c != ':') =
        ("title").toList := by
      show (("title").toList ++ ((':') :: ((' ') :: rstrip X))).takeWhile (fun c => c != ':') =
        ("title").toList
      rw [takeWhile_append_all _ _ _ (by decide)]
      simp [List.takeWhile_cons]
    have hdrop : ((("title: ").toList ++ rstrip X).dropWhile (fun c => c != ':')).drop 1 =
        (' ') :: rstrip X := by
      show ((("title").toList ++ ((':') :: ((' ') :: rstrip X))).dropWhile
        (fun c => c != ':')).drop 1 = (' ') :: rstrip X
      rw [dropWhile_append_all _ _ _ (by decide)]
      simp [List.dropWhile_cons]
    rw [htake, hdrop]
    have hkey : pyStrip (("title").toList) = titleKey := by decide
    rw [hkey]
    have hval : pyStripValue ((' ') :: rstrip X) = pyStripValue X := by
      have hps : pyStrip ((' ') :: rstrip X) = pyStrip X := by
        unfold pyStrip
        have hr : rstrip ((' ') :: rstrip X) = (' ') :: rstrip X := by
          show rstrip ([(' ')] ++ rstrip X) = (' ') :: rstrip X
          rw [rstrip_append, rstrip_idem, if_neg hX]
          rfl
        rw [hr, lstrip_cons_ws _ _ (by decide)]
      unfold pyStripValue
      rw [hps]
    rw [hval]
    simp [dictGet]

/-- Counterexample to claim C5 as stated: for the front-matter line
`title: X` with X the doubly quoted value, the scanner strips every
surrounding quote character (Python `strip` semantics), not exactly one
layer, so the produced title differs from the one-layer reading of the
specification. -/
theorem claim_title_one_layer_cex :
    dictGet titleKey (extract_yaml_frontmatter
      (("---\ntitle: \"\"Alpha\"\"\n---\nbody").toList)) = ("Alpha").toList ∧
    specStripOneQuoteLayer (pyStrip (("\"\"Alpha\"\"").toList)) = ("\"Alpha\"").toList ∧
    dictGet titleKey (extract_yaml_frontmatter
      (("---\ntitle: \"\"Alpha\"\"\n---\nbody").toList)) ≠
      specStripOneQuoteLayer (pyStrip (("\"\"Alpha\"\"").toList)) := by
  refine ⟨by decide, by decide, by decide⟩

/-- Claim C5 (amended): for a note whose front-matter consists of the
line `title: X`, the scanner yields the title X with surrounding
whitespace trimmed, then all surrounding double-quote characters
stripped, then all surrounding single-quote characters stripped
(`pyStripValue`); the hypotheses say that X spans one line and that the
front-matter region contains no early delimiter occurrence. -/
theorem claim_title_strip_corrected (X b : Str)
    (hnl : ('\n') ∉ X)
    (hnd : containsSub fmDelim ((('\n') :: (("title: ").toList ++ X ++ [('\n')])) ++
      [('-'), ('-')]) = false) :
    dictGet titleKey (extract_yaml_frontmatter
      (fmDelim ++ ((('\n') :: (("title: ").toList ++ X ++ [('\n')])) ++ (fmDelim ++ b)))) =
      pyStripValue X := by
  have hsf : splitFirst fmDelim ((('\n') :: (("title: ").toList ++ X ++ [('\n')])) ++
      [('-'), ('-')]) = none :=
    splitFirst_eq_none_of_not_contains _ _ hnd
  have hb := splitFirst_boundary b _ hsf
  have h2 : pySplitMax 2 fmDelim
      (fmDelim ++ ((('\n') :: (("title: ").toList ++ X ++ [('\n')])) ++ (fmDelim ++ b))) =
      [[], ('\n') :: (("title: ").toList ++ X ++ [('\n')]), b] := by
    rw [show (2 : Nat) = 1 + 1 from rfl, pySplitMax_succ,
      splitFirst_prefix fmDelim _ (by decide)]
    show [] :: pySplitMax 1 fmDelim
      ((('\n') :: (("title: ").toList ++ X ++ [('\n')])) ++ (fmDelim ++ b)) = _
    rw [show (1 : Nat) = 0 + 1 from rfl, pySplitMax_succ, hb]
    rfl
  have hpref := isPref_self_append fmDelim
    ((('\n') :: (("title: ").toList ++ X ++ [('\n')])) ++ (fmDelim ++ b))
  unfold extract_yaml_frontmatter
  rw [hpref, h2]
  exact yaml_title_only X hnl

/-- Witness for the amended claim C5 at the concrete quoted title
value. -/
theorem claim_title_strip_corrected_w :
    dictGet titleKey (extract_yaml_frontmatter
      (fmDelim ++ ((('\n') :: (("title: ").toList ++ ("\"Alpha\"").toList ++ [('\n')])) ++
        (fmDelim ++ ("\nbody").toList)))) = pyStripValue (("\"Alpha\"").toList) :=
  claim_title_strip_corrected (("\"Alpha\"").toList) (("\nbody").toList)
    (by decide) (by decide)

/-- Claim C6: a note that begins with the front-matter delimiter but
has no second delimiter yields no front-matter at all, hence an empty
title, and its raw content is still scanned for link mentions, which
reach the graph as usual. -/
theorem claim_no_closing_delimiter (n rest : Str)
    (h : containsSub fmDelim rest = false) :
    extract_yaml_frontmatter (fmDelim ++ rest) = [] ∧
    dictGet titleKey (extract_yaml_frontmatter (fmDelim ++ rest)) = [] ∧
    (scan_notes (some [⟨n, some (fmDelim ++ rest)⟩])).existing_notes = [] ∧
    (∀ t, t ∈ keysOf (scan_notes (some [⟨n, some (fmDelim ++ rest)⟩])).all_links ↔
      t ∈ (extract_links (fmDelim ++ rest)).map (fun m => m.2)) := by
  have hfm := extract_yaml_no_close rest h
  refine ⟨hfm, ?_, ?_, ?_⟩
  · rw [hfm]
    rfl
  · have hred : (scan_notes (some [⟨n, some (fmDelim ++ rest)⟩])).existing_notes =
        ((extract_links (fmDelim ++ rest)).foldl
          (processMention (([⟨n, some (fmDelim ++ rest)⟩] : List FileEntry).map
            (fun f => f.name)) n)
          (fileTitleUpdate n
            (dictGet titleKey (extract_yaml_frontmatter (fmDelim ++ rest)))
            ⟨[], [], [], []⟩)).existing_notes := rfl
    rw [hred, en_links_fold, hfm]
    rfl
  · intro t
    have hal : (scan_notes (some [⟨n, some (fmDelim ++ rest)⟩])).all_links =
        dedupVals (rawScan [⟨n, some (fmDelim ++ rest)⟩]).all_links := rfl
    rw [hal, keysOf_dedupVals]
    have hiff := mem_keysOf_fold_al
      (([⟨n, some (fmDelim ++ rest)⟩] : List FileEntry).map (fun f => f.name))
      [⟨n, some (fmDelim ++ rest)⟩] ⟨[], [], [], []⟩ t
    simpa [rawScan, keysOf, mentionedTargets, fileTargets] using hiff

/-- Witness for claim C6: a concrete note that opens a front-matter
block, never closes it, and still has its link recorded. -/
theorem claim_no_closing_delimiter_w :
    extract_yaml_frontmatter (fmDelim ++ ("\nsee [A](x.md)").toList) = [] ∧
    (scan_notes (some [⟨("a.md").toList,
        some (fmDelim ++ ("\nsee [A](x.md)").toList)⟩])).existing_notes = [] ∧
    (("x.md").toList ∈ keysOf (scan_notes (some [⟨("a.md").toList,
        some (fmDelim ++ ("\nsee [A](x.md)").toList)⟩])).all_links ↔
      ("x.md").toList ∈
        (extract_links (fmDelim ++ ("\nsee [A](x.md)").toList)).map (fun m => m.2)) := by
  have h := claim_no_closing_delimiter (("a.md").toList) (("\nsee [A](x.md)").toList)
    (by decide)
  exact ⟨h.1, h.2.2.1, h.2.2.2 (("x.md").toList)⟩

/-- Claim C7: a read failure on one file never aborts the scan; the
file contributes no title and no mentions, and the four resulting maps
equal those of a scan in which that file's content is empty, no matter
where the failing file sits in the listing. -/
theorem claim_read_failure_recoverable (pre post : List FileEntry) (n : Str) :
    scan_notes (some (pre ++ ⟨n, none⟩ :: post)) =
      scan_notes (some (pre ++ ⟨n, some []⟩ :: post)) := by
  have hstep : ∀ ex st, processFile ex st ⟨n, none⟩ = processFile ex st ⟨n, some []⟩ := by
    intro ex st
    rfl
  exact scanFiles_congr_mid pre post _ _ rfl hstep

/-- Claim C8: when the note directory does not exist, the scan returns
the empty graph and all four statistics are zero. -/
theorem claim_missing_directory_empty :
    scan_notes none = ⟨[], [], [], []⟩ ∧
    (generate_json_mapping (scan_notes none).existing_notes (scan_notes none).all_links
        (scan_notes none).broken_links (scan_notes none).files_linking_to).statistics =
      ⟨0, 0, 0, 0⟩ :=
  ⟨rfl, rfl⟩

/-- Claim C9: `all_links` and `files_linking_to` always have the same
key list, and every value stored in either map is a non-empty list. -/
theorem claim_al_flt_synchronized (files : List FileEntry) :
    keysOf (scan_notes (some files)).all_links =
      keysOf (scan_notes (some files)).files_linking_to ∧
    (∀ p ∈ (scan_notes (some files)).all_links, p.2 ≠ []) ∧
    (∀ p ∈ (scan_notes (some files)).files_linking_to, p.2 ≠ []) := by
  have hal : (scan_notes (some files)).all_links = dedupVals (rawScan files).all_links := rfl
  have hflt : (scan_notes (some files)).files_linking_to =
      sortVals (rawScan files).files_linking_to := rfl
  obtain ⟨h1, h2, h3, h4, h5, h6, h7⟩ := scanInv_raw files
  refine ⟨?_, ?_, ?_⟩
  · rw [hal, hflt, keysOf_dedupVals, keysOf_sortVals, h3]
  · intro p hp
    rw [hal] at hp
    have hp2 : p ∈ ((rawScan files).all_links).map (fun q => (q.1, dedupF q.2)) := hp
    rcases List.mem_map.mp hp2 with ⟨q, hq, hq2⟩
    have hval : p.2 = dedupF q.2 := by
      rw [← hq2]
    rw [hval]
    exact dedupF_ne_nil _ (h4 q hq)
  · intro p hp
    rw [hflt] at hp
    have hp2 : p ∈ ((rawScan files).files_linking_to).map (fun q => (q.1, sortStr q.2)) := hp
    rcases List.mem_map.mp hp2 with ⟨q, hq, hq2⟩
    have hval : p.2 = sortStr q.2 := by
      rw [← hq2]
    rw [hval]
    exact sortStr_ne_nil _ (h5 q hq)

/-- Witness for claim C9 at a concrete directory, with the membership
hypotheses of its value clauses discharged on concrete entries. -/
theorem claim_al_flt_synchronized_w :
    keysOf (scan_notes (some [⟨("a.md").toList,
        some (("[A](x.md)").toList)⟩])).all_links =
      keysOf (scan_notes (some [⟨("a.md").toList,
        some (("[A](x.md)").toList)⟩])).files_linking_to ∧
    ((("x.md").toList, [("A").toList]) : Str × List Str).2 ≠ [] ∧
    ((("x.md").toList, [("a.md").toList]) : Str × List Str).2 ≠ [] := by
  have h := claim_al_flt_synchronized [⟨("a.md").toList, some (("[A](x.md)").toList)⟩]
  exact ⟨h.1, h.2.1 ((("x.md").toList, [("A").toList])) (by decide),
    h.2.2 ((("x.md").toList, [("a.md").toList])) (by decide)⟩

/-- Claim C10: a file that is listed but unreadable still counts toward
the existing-filename set, so its filename is never classified as a
broken-link target. -/
theorem claim_unreadable_counts_existing (pre post : List FileEntry) (n : Str) :
    n ∉ keysOf (scan_notes (some (pre ++ ⟨n, none⟩ :: post))).broken_links := by
  intro hmem
  have hbl : (scan_notes (some (pre ++ ⟨n, none⟩ :: post))).broken_links =
      dedupVals ((rawScan (pre ++ ⟨n, none⟩ :: post)).broken_links) := rfl
  rw [hbl, keysOf_dedupVals] at hmem
  apply (scanInv_raw (pre ++ ⟨n, none⟩ :: post)).1 n hmem
  refine List.mem_map.mpr ⟨⟨n, none⟩, ?_, rfl⟩
  simp

/-- Witness for claim C10 at a concrete directory in which the
unreadable file `b.md` is the target of a mention from `a.md`. -/
theorem claim_unreadable_counts_existing_w :
    ("b.md").toList ∉ keysOf (scan_notes (some ([⟨("a.md").toList,
        some (("[T](b.md)").toList)⟩] ++
      (⟨("b.md").toList, none⟩ : FileEntry) :: []))).broken_links :=
  claim_unreadable_counts_existing
    [⟨("a.md").toList, some (("[T](b.md)").toList)⟩] [] (("b.md").toList)

end GeoKB
